import Mathlib

/-!
Verification of the scan-plan compiler in `rsoxs_scans/constructor.py`.

The three operations of the compiler — `get_nexafs_scan_params` (the speed
scan planner), `get_energies` (the energy list generator) and
`construct_exposure_times` (the exposure scheduler) — are embedded shallowly:
Python floats become exact rationals, numpy arrays become lists, and raised
exceptions become `Except.error` values of the `Err` type below.  `np.round`
and `np.around` round half to even, which `roundHalfEven` reproduces.
-/

/-- Round half to even, the rounding used by `np.round` / `np.around`. -/
def roundHalfEven (q : ℚ) : ℤ :=
  let f := q.floor
  let frac := q - (f : ℚ)
  if frac < 1/2 then f
  else if 1/2 < frac then f + 1
  else if f % 2 = 0 then f else f + 1

/-- `np.around(x*2, 1)/2` as used at constructor.py:250: round to the
nearest multiple of 0.05. -/
def round005 (q : ℚ) : ℚ := (roundHalfEven (q * 20) : ℚ) / 20

/-- `np.linspace(a, b, num, endpoint)` over exact rationals. -/
def linspace (a b : ℚ) (num : ℕ) (endpoint : Bool) : List ℚ :=
  if endpoint then
    if num = 0 then []
    else if num = 1 then [a]
    else (List.range num).map (fun (k : ℕ) => a + (k : ℚ) * (b - a) / ((num : ℚ) - 1))
  else
    (List.range num).map (fun (k : ℕ) => a + (k : ℚ) * (b - a) / (num : ℚ))

/-- The error outcomes of the compiler.  Python raises `TypeError`,
`KeyError` or `ValueError`; the `ValueError`s are split by their message:
`ratioCount` is "got the wrong number of intervals", `ratioValue` is
"ratio value of ... invalid", `repeatRange` is the repeat bound check and
`exposureRule` is the invalid-logic-test error. -/
inductive Err
  | typeError
  | keyError
  | ratioCount
  | ratioValue
  | repeatRange
  | exposureRule
  deriving DecidableEq

instance exceptDecEq {ε α : Type} [DecidableEq ε] [DecidableEq α] :
    DecidableEq (Except ε α) := fun a b =>
  match a, b with
  | .ok x, .ok y =>
    if h : x = y then isTrue (by rw [h]) else isFalse (fun hc => h (Except.ok.inj hc))
  | .error x, .error y =>
    if h : x = y then isTrue (by rw [h]) else isFalse (fun hc => h (Except.error.inj hc))
  | .ok _, .error _ => isFalse (fun hc => Except.noConfusion hc)
  | .error _, .ok _ => isFalse (fun hc => Except.noConfusion hc)

/-! ## Speed scan planner: `get_nexafs_scan_params` (constructor.py:10-115) -/

/-- The loop at constructor.py:105-107: accumulate `(start, end, rate)`
triples and the summed zone durations over the zone indices. -/
def nexafs_loop (edge ratios : List ℚ) (speed : ℚ) :
    List ℕ → List (ℚ × ℚ × ℚ) × ℚ → List (ℚ × ℚ × ℚ) × ℚ
  | [], acc => acc
  | i :: rest, acc =>
    nexafs_loop edge ratios speed rest
      (acc.1 ++ [(edge.getD i 0, edge.getD (i+1) 0, ratios.getD i 0 * speed)],
       acc.2 + |edge.getD (i+1) 0 - edge.getD i 0| / (ratios.getD i 0 * speed))

/-- Core of `get_nexafs_scan_params` after alias resolution
(constructor.py:100-115): the ratio-count check followed by the zone loop. -/
def get_nexafs_scan_params (edge : List ℚ) (speed : ℚ) (ratios : List ℚ) :
    Except Err (List (ℚ × ℚ × ℚ) × ℚ) :=
  if ratios.length + 1 ≠ edge.length then .error .ratioCount
  else .ok (nexafs_loop edge ratios speed (List.range ratios.length) ([], 0))

/-! ## Energy list generator: `get_energies` (constructor.py:118-258) -/

/-- The second-pass loop at constructor.py:243-250.  For each zone index the
ratio and the global multiple are checked against 0.01, the zone point count
is computed with the rescaled ratio, and the zone's (rounded) linspace
segment is appended.  The final zone (`rest = []`) gets one extra point and
includes its right endpoint, unless the edge was a single scalar. -/
def energy_zone_loop (edge ratios : List ℚ) (multiple : ℚ) (singleinput : Bool) :
    List ℕ → Except Err (List ℚ)
  | [] => .ok []
  | i :: rest =>
    let a := edge.getD i 0
    let b := edge.getD (i+1) 0
    let interval := ratios.getD i 0
    if interval < 1/100 then .error .ratioValue
    else if multiple < 1/100 then .error .ratioValue
    else
      let numpnt : ℤ := max 1 (roundHalfEven (|b - a| / max (1/100) (interval * multiple)))
      let at_end := rest.isEmpty && !singleinput
      let seg := (linspace a b (numpnt.toNat + (if at_end then 1 else 0)) at_end).map round005
      match energy_zone_loop edge ratios multiple singleinput rest with
      | .error e => .error e
      | .ok tail => .ok (seg ++ tail)

/-- Core of `get_energies` after alias resolution (constructor.py:232-250):
the ratio-count check, the first (unit-scale) pass over the zones summed into
`steps`, the global `multiple = steps / frames`, and the second pass. -/
def get_energies_core (edge ratios : List ℚ) (singleinput : Bool) (frames : ℚ) :
    Except Err (List ℚ) :=
  if ratios.length + 1 ≠ edge.length then .error .ratioCount
  else
    let steps : ℤ := ((List.range ratios.length).map (fun i =>
      roundHalfEven (|edge.getD (i+1) 0 - edge.getD i 0| / (ratios.getD i 0 * 1)))).sum
    let multiple : ℚ := 1 * ((steps : ℚ) / frames)
    energy_zone_loop edge ratios multiple singleinput (List.range ratios.length)

/-! ## Alias resolution for `get_energies` (constructor.py:155-233) -/

/-- Edge-name alias table of `get_energies` (constructor.py:155-170). -/
def edge_names : List (String × String) :=
  [("c", "Carbon"), ("carbonk", "Carbon"), ("ck", "Carbon"),
   ("n", "Nitrogen"), ("nitrogenk", "Nitrogen"), ("nk", "Nitrogen"),
   ("f", "Fluorine"), ("fluorinek", "Fluorine"), ("fk", "Fluorine"),
   ("o", "Oxygen"), ("oxygenk", "Oxygen"), ("ok", "Oxygen"),
   ("ca", "Calcium"), ("calciumk", "Calcium"), ("cak", "Calcium")]

/-- Edge threshold table of `get_energies` (constructor.py:174-182). -/
def edges_table : List (String × List ℚ) :=
  [("carbon", [250, 270, 282, 287, 292, 305, 350]),
   ("oxygen", [510, 525, 540, 560]),
   ("fluorine", [670, 680, 690, 700, 740]),
   ("aluminium", [1540, 1560, 1580, 1600]),
   ("nitrogen", [380, 397, 407, 440]),
   ("zincl", [1000, 1015, 1035, 1085]),
   ("sulfurl", [150, 160, 170, 200]),
   ("calcium", [320, 340, 345, 349, 349.5, 352.5, 353, 355, 360, 380])]

/-- Interval-ratio table of `get_energies` (constructor.py:184-192). -/
def intervals_table : List (String × List ℚ) :=
  [("carbon", [5, 1, 0.1, 0.2, 1, 5]),
   ("carbon nonaromatic", [5, 1, 0.2, 0.1, 1, 5]),
   ("default 4", [2, 0.2, 2]),
   ("default 5", [2, 0.2, 0.6, 2]),
   ("default 6", [2, 0.6, 0.2, 0.6, 2]),
   ("default 2", [2]),
   ("default 3", [2, 0.2]),
   ("calcium", [5, 1, 0.5, 0.1, 0.25, 0.1, 0.5, 1, 5])]

/-- Frame preset table of `get_energies` (constructor.py:194-197). -/
def frames_table : List (String × ℚ) :=
  [("full", 112), ("", 112), ("short", 56), ("very short", 40)]

/-- The edge argument of `get_energies`: an alias string, an explicit
threshold sequence, or a bare number. -/
inductive EdgeInput
  | str (s : String)
  | nums (l : List ℚ)
  | num (q : ℚ)

/-- The frames argument of `get_energies`: a number, a float NaN, or an
alias string. -/
inductive FrameInput
  | num (q : ℚ)
  | nan
  | str (s : String)

/-- The ratios argument of `get_energies`: absent (`None` or `""`), an alias
string, or an explicit sequence. -/
inductive RatioInput
  | absent
  | str (s : String)
  | nums (l : List ℚ)

/-- Edge resolution of `get_energies` (constructor.py:198-210): alias names
map to canonical names, canonical names map to threshold tuples, a bare
number `v` becomes the zero-width edge `(v, v)` with `singleinput` set, and
an unknown string is a `TypeError`.  Returns the thresholds, the
`singleinput` flag, and the lowercased string form of `edge_input` used for
the later interval lookup (`none` when `edge_input` is not a string). -/
def resolve_edge_energies : EdgeInput → Except Err (List ℚ × Bool × Option String)
  | .str s =>
    let s2 := match edge_names.lookup s.toLower with
      | some nm => nm
      | none => s
    match edges_table.lookup s2.toLower with
    | some thresholds => .ok (thresholds, false, some s2.toLower)
    | none => .error .typeError
  | .nums l => .ok (l, false, none)
  | .num q => .ok ([q, q], true, none)

/-- Frames resolution of `get_energies` (constructor.py:211-218): a float
NaN is replaced by the string "full" before the table lookup, strings go
through `frames_table`, unknown strings are a `TypeError`, numbers pass
through. -/
def resolve_frames : FrameInput → Except Err ℚ
  | .num q => .ok q
  | .nan =>
    match frames_table.lookup "full" with
    | some v => .ok v
    | none => .error .typeError
  | .str s =>
    match frames_table.lookup s.toLower with
    | some v => .ok v
    | none => .error .typeError

/-- Ratios resolution of `get_energies` (constructor.py:220-231): when
absent, look up the edge key, then `"default {len(edge)}"`, then fall back
to all ones; an alias string is looked up directly (a missing key is
Python's uncaught `KeyError`); an explicit sequence passes through. -/
def resolve_ratios_energies (ratios : RatioInput) (edgeKey : Option String)
    (edgeLen : ℕ) : Except Err (List ℚ) :=
  match ratios with
  | .absent =>
    match edgeKey.bind (fun k => intervals_table.lookup k) with
    | some r => .ok r
    | none =>
      match intervals_table.lookup ("default " ++ toString edgeLen) with
      | some r => .ok r
      | none => .ok (List.replicate (edgeLen - 1) 1)
  | .str s =>
    match intervals_table.lookup s with
    | some r => .ok r
    | none => .error .keyError
  | .nums l => .ok l

/-- `get_energies` (constructor.py:118-258): resolve the edge, the frames
and the ratios, then run the core two-pass point generation. -/
def get_energies (edge : EdgeInput) (frames : FrameInput) (ratios : RatioInput) :
    Except Err (List ℚ) := do
  let (e, singleinput, key) ← resolve_edge_energies edge
  let f ← resolve_frames frames
  let r ← resolve_ratios_energies ratios key e.length
  get_energies_core e r singleinput f

/-- Modelled from the spec: the `default_frames` constant comes from the
repository's `defaults` module, which is not part of the compiler source
here.  The spec fixes the default frame target to the "full" preset of
approximately 112 frames ("frame target (scalar or alias, default preset
≈112)"). -/
def default_frames : FrameInput := .str "full"

/-! ## Exposure scheduler: `construct_exposure_times` (constructor.py:261-308) -/

/-- A logic test of an exposure rule (constructor.py:288-302).  `unknown`
stands for any test name other than the four recognized ones. -/
inductive ExpTest
  | less_than (t : ℚ)
  | greater_than (t : ℚ)
  | between (t1 t2 : ℚ)
  | equals (t : ℚ)
  | unknown
  deriving DecidableEq

/-- The boolean masks of constructor.py:290-299: which energies a test
selects. -/
def test_match : ExpTest → ℚ → Bool
  | .less_than t, e => e < t
  | .greater_than t, e => t < e
  | .between t1 t2, e => decide (t1 < e) && decide (e < t2)
  | .equals t, e => e == t
  | .unknown, _ => false

/-- The rule loop of constructor.py:288-302: each (test, value) pair in
order overwrites the exposure of every energy its mask selects; an
unrecognized test raises. -/
def apply_rules (energies : List ℚ) :
    List (ExpTest × ℚ) → List ℚ → Except Err (List ℚ)
  | [], times => .ok times
  | (t, v) :: rest, times =>
    if t = .unknown then .error .exposureRule
    else
      apply_rules energies rest
        ((energies.zip times).map (fun p => if test_match t p.1 then v else p.2))

/-- The exposure-time argument: a bare number, the empty string (treated as
the default 1), or a rule list `[default, test, value, ...]` with the
tests and values already paired as Python's `zip` does. -/
inductive ExposureInput
  | num (q : ℚ)
  | emptyStr
  | rules (dflt : ℚ) (rs : List (ExpTest × ℚ))

/-- Constructor.py:282-302: the per-point exposure times before the time
estimate. -/
def resolve_times (energies : List ℚ) : ExposureInput → Except Err (List ℚ)
  | .num q => .ok (energies.map (fun _ => q))
  | .emptyStr => .ok (energies.map (fun _ => (1 : ℚ)))
  | .rules d rs => apply_rules energies rs (energies.map (fun _ => d))

/-- `construct_exposure_times` (constructor.py:261-308).  The repeat count
is validated against [1, 100], the per-point times are resolved, and the
total time is `sum(times * repeats + (repeats - 1)) + 4 * len(times)`.
The returned boolean is the long-scan warning flag (`time > threshold`,
emitted via `warnings.warn` in the source), which never prevents the
schedule from being returned; the threshold itself is the
`dafault_warning_step_time` configuration constant, taken here as a
parameter. -/
def construct_exposure_times (energies : List ℚ) (exposure_time : ExposureInput)
    (repeats : ℤ) (threshold : ℚ) : Except Err (List ℚ × ℚ × Bool) :=
  if 1 > repeats ∨ 100 < repeats then .error .repeatRange
  else
    match resolve_times energies exposure_time with
    | .error e => .error e
    | .ok times =>
      let calcTimes := times.map (fun x => x * (repeats : ℚ) + 1 * ((repeats : ℚ) - 1))
      let time := calcTimes.sum + 4 * (times.length : ℚ)
      .ok (times, time, decide (threshold < time))

/-! ## Specification-side closed forms for the energy generator -/

/-- The first-pass zone counts of the spec's step 2:
`count_i = round(|E[i+1]-E[i]| / R[i])` at unit scale. -/
def firstPassCounts (edge ratios : List ℚ) : List ℤ :=
  (List.range ratios.length).map (fun i =>
    roundHalfEven (|edge.getD (i+1) 0 - edge.getD i 0| / ratios.getD i 0))

/-- The single global scale factor of the spec's step 3:
`scale = S / frame_target` where `S` sums the first-pass counts. -/
def scaleFactor (edge ratios : List ℚ) (frames : ℚ) : ℚ :=
  ((firstPassCounts edge ratios).sum : ℚ) / frames

/-- The second-pass zone count of the spec's step 4:
`count_i = max(1, round(|E[i+1]-E[i]| / max(0.01, R[i] * scale)))`. -/
def secondPassCount (edge ratios : List ℚ) (mult : ℚ) (i : ℕ) : ℕ :=
  (max 1 (roundHalfEven (|edge.getD (i+1) 0 - edge.getD i 0| /
    max (1/100) (ratios.getD i 0 * mult)))).toNat

/-- The points of zone `i`: `count_i` evenly spaced points starting at
`E[i]` with step `(E[i+1]-E[i]) / count_i`, one extra point (the right
endpoint `E[i+1]`) on the final zone, each rounded to the nearest 0.05. -/
def zone_points (edge ratios : List ℚ) (mult : ℚ) (last : Bool) (i : ℕ) : List ℚ :=
  (List.range (secondPassCount edge ratios mult i + (if last then 1 else 0))).map
    (fun (k : ℕ) => round005 (edge.getD i 0 +
      (k : ℚ) * (edge.getD (i+1) 0 - edge.getD i 0) / (secondPassCount edge ratios mult i : ℚ)))

/-- The whole energy list in closed form: the concatenated zone segments. -/
def energy_list_spec (edge ratios : List ℚ) (frames : ℚ) : List ℚ :=
  ((List.range ratios.length).map (fun i =>
    zone_points edge ratios (scaleFactor edge ratios frames)
      (decide (i = ratios.length - 1)) i)).flatten

/-! ## Helper lemmas -/

lemma one_le_toNat_max_one (x : ℤ) : 1 ≤ (max 1 x).toNat := by
  have h1 : (1 : ℤ) ≤ max 1 x := le_max_left 1 x
  omega

lemma linspace_length (a b : ℚ) (num : ℕ) (ep : Bool) :
    (linspace a b num ep).length = num := by
  unfold linspace
  rcases ep with _ | _
  · rw [if_neg (by simp)]
    rw [List.length_map, List.length_range]
  · rw [if_pos rfl]
    rcases Nat.eq_zero_or_pos num with h0 | hpos
    · simp [h0]
    · rcases Nat.lt_or_ge num 2 with h1 | h2
      · have hn1 : num = 1 := by omega
        simp [hn1]
      · rw [if_neg (by omega), if_neg (by omega)]
        rw [List.length_map, List.length_range]

lemma linspace_false_eq (a b : ℚ) (num : ℕ) :
    linspace a b num false =
      (List.range num).map (fun (k : ℕ) => a + (k : ℚ) * (b - a) / (num : ℚ)) := by
  unfold linspace
  simp

lemma linspace_true_succ (a b : ℚ) (c : ℕ) (hc : 1 ≤ c) :
    linspace a b (c + 1) true =
      (List.range (c + 1)).map (fun (k : ℕ) => a + (k : ℚ) * (b - a) / (c : ℚ)) := by
  unfold linspace
  rw [if_pos rfl, if_neg (by omega), if_neg (by omega)]
  have hcast : ((c + 1 : ℕ) : ℚ) - 1 = (c : ℚ) := by push_cast; ring
  rw [hcast]

lemma nexafs_loop_eq (edge ratios : List ℚ) (speed : ℚ) :
    ∀ (idx : List ℕ) (acc : List (ℚ × ℚ × ℚ) × ℚ),
      nexafs_loop edge ratios speed idx acc =
        (acc.1 ++ idx.map (fun i =>
           (edge.getD i 0, edge.getD (i+1) 0, ratios.getD i 0 * speed)),
         acc.2 + (idx.map (fun i =>
           |edge.getD (i+1) 0 - edge.getD i 0| / (ratios.getD i 0 * speed))).sum) := by
  intro idx
  induction idx with
  | nil => intro acc; simp [nexafs_loop]
  | cons i rest ih =>
    intro acc
    rw [nexafs_loop, ih]
    simp [add_assoc]

/-- Claim C4: for every edge sequence, positive speed and matching resolved
ratio sequence, the speed scan planner returns the zone list
`[(E[i], E[i+1], ratio[i] * speed)]` in order together with the total
duration `sum |E[i+1]-E[i]| / (ratio[i] * speed)`. -/
theorem C4_speed_scan_closed_form (edge ratios : List ℚ) (speed : ℚ)
    (hlen : ratios.length + 1 = edge.length) (hspeed : 0 < speed)
    (hrat : ∀ i < ratios.length, 0 < ratios.getD i 0) :
    get_nexafs_scan_params edge speed ratios =
      .ok ((List.range ratios.length).map (fun i =>
             (edge.getD i 0, edge.getD (i+1) 0, ratios.getD i 0 * speed)),
           ((List.range ratios.length).map (fun i =>
             |edge.getD (i+1) 0 - edge.getD i 0| / (ratios.getD i 0 * speed))).sum) := by
  unfold get_nexafs_scan_params
  rw [if_neg (by omega), nexafs_loop_eq]
  simp

theorem C4_speed_scan_closed_form_witness :
    get_nexafs_scan_params [0, 1] 1 [1] =
      .ok ((List.range 1).map (fun i =>
             (([0, 1] : List ℚ).getD i 0, ([0, 1] : List ℚ).getD (i+1) 0,
              ([1] : List ℚ).getD i 0 * 1)),
           ((List.range 1).map (fun i =>
             |([0, 1] : List ℚ).getD (i+1) 0 - ([0, 1] : List ℚ).getD i 0| /
               (([1] : List ℚ).getD i 0 * 1))).sum) :=
  C4_speed_scan_closed_form [0, 1] [1] 1 (by decide) (by decide) (by decide)

/-- Claim C1 (refuted): a bare numeric edge is supposed to yield the
one-element list of the rounded value, but the code raises.  The scalar edge
becomes the zero-width pair `(v, v)`, the first pass therefore counts zero
points, the global multiple becomes `0 / frames = 0 < 0.01`, and the 0.01
guard at constructor.py:246-247 raises `ValueError` before any energy is
produced. -/
theorem C1_scalar_edge_errors :
    get_energies (.num 270) (.num 112) .absent = .error .ratioValue := by
  with_unfolding_all rfl

/-- Claim C10: a float NaN frame target is silently replaced by the "full"
preset alias, which resolves to 112, exactly as the spec's default frame
target does; the NaN never makes the call fail on its own. -/
theorem C10_nan_frames_default :
    resolve_frames .nan = .ok 112 ∧
    ∀ (edge : EdgeInput) (ratios : RatioInput),
      get_energies edge .nan ratios = get_energies edge default_frames ratios := by
  constructor
  · with_unfolding_all rfl
  · intro edge ratios
    have h : resolve_frames .nan = resolve_frames default_frames := by
      with_unfolding_all rfl
    simp only [get_energies, h]

lemma energy_zone_loop_error_ratioValue (edge ratios : List ℚ) (mult : ℚ) (si : Bool) :
    ∀ (idx : List ℕ) (e : Err),
      energy_zone_loop edge ratios mult si idx = .error e → e = .ratioValue := by
  intro idx
  induction idx with
  | nil => intro e h; simp [energy_zone_loop] at h
  | cons i rest ih =>
    intro e h
    rw [energy_zone_loop] at h
    split at h
    · exact (Except.error.inj h).symm
    · split at h
      · exact (Except.error.inj h).symm
      · split at h
        · next e' heq => exact (Except.error.inj h) ▸ ih e' heq
        · exact absurd h (by simp)

/-- Claim C8: both the speed planner and the energy generator report the
ratio-count error exactly when the resolved ratio sequence does not have one
fewer element than the edge sequence, and in that case no schedule at all is
produced. -/
theorem C8_ratio_count_guard (edge ratios : List ℚ) (speed frames : ℚ) (si : Bool) :
    (get_nexafs_scan_params edge speed ratios = .error .ratioCount ↔
      ratios.length + 1 ≠ edge.length) ∧
    (get_energies_core edge ratios si frames = .error .ratioCount ↔
      ratios.length + 1 ≠ edge.length) := by
  constructor
  · unfold get_nexafs_scan_params
    split
    · next hne => simp [hne]
    · next hne => simp [hne]
  · unfold get_energies_core
    split
    · next hne => simp [hne]
    · next hne =>
      simp only [hne, iff_false]
      intro h
      have := energy_zone_loop_error_ratioValue edge ratios _ si _ _ h
      exact absurd this (by decide)

/-- The per-zone segments produced by a successful run of
`energy_zone_loop`, as a pure list of lists. -/
def zone_segments (edge ratios : List ℚ) (mult : ℚ) (si : Bool) : List ℕ → List (List ℚ)
  | [] => []
  | i :: rest =>
    ((linspace (edge.getD i 0) (edge.getD (i+1) 0)
        ((max 1 (roundHalfEven (|edge.getD (i+1) 0 - edge.getD i 0| /
          max (1/100) (ratios.getD i 0 * mult)))).toNat +
          (if (rest.isEmpty && !si) then 1 else 0)) (rest.isEmpty && !si)).map round005)
    :: zone_segments edge ratios mult si rest

lemma energy_zone_loop_ok (edge ratios : List ℚ) (mult : ℚ) (si : Bool) :
    ∀ (idx : List ℕ), (∀ i ∈ idx, ¬ ratios.getD i 0 < 1/100) → ¬ mult < 1/100 →
      energy_zone_loop edge ratios mult si idx =
        .ok (zone_segments edge ratios mult si idx).flatten := by
  intro idx
  induction idx with
  | nil => intro _ _; simp [energy_zone_loop, zone_segments]
  | cons i rest ih =>
    intro hr hm
    rw [energy_zone_loop, if_neg (hr i (by simp)), if_neg hm,
      ih (fun j hj => hr j (by simp [hj])) hm]
    simp [zone_segments]

lemma zone_segments_range' (edge ratios : List ℚ) (mult : ℚ) :
    ∀ (len s : ℕ), zone_segments edge ratios mult false (List.range' s len) =
      (List.range' s len).map (fun i =>
        zone_points edge ratios mult (decide (i = s + len - 1)) i) := by
  intro len
  induction len with
  | zero => intro s; simp [zone_segments]
  | succ m ih =>
    intro s
    show zone_segments edge ratios mult false (s :: List.range' (s+1) m) = _
    rw [zone_segments]
    have htail : zone_segments edge ratios mult false (List.range' (s+1) m) =
        (List.range' (s+1) m).map (fun i =>
          zone_points edge ratios mult (decide (i = s + (m + 1) - 1)) i) := by
      rw [ih (s+1)]
      have harith : (s + 1) + m - 1 = s + (m + 1) - 1 := by omega
      rw [harith]
    rw [htail]
    show _ = zone_points edge ratios mult (decide (s = s + (m + 1) - 1)) s ::
      (List.range' (s+1) m).map (fun i =>
        zone_points edge ratios mult (decide (i = s + (m + 1) - 1)) i)
    congr 1
    rcases Nat.eq_zero_or_pos m with hm0 | hmpos
    · subst hm0
      have hflag : (decide (s = s + (0 + 1) - 1)) = true := by simp
      rw [hflag]
      have hempty : (List.range' (s+1) 0).isEmpty = true := rfl
      simp only [hempty, Bool.not_false, Bool.and_self]
      unfold zone_points secondPassCount
      simp only [if_true, ite_true]
      rw [linspace_true_succ _ _ _ (one_le_toNat_max_one _), List.map_map]
      rfl
    · have hflag : (decide (s = s + (m + 1) - 1)) = false := by
        simp only [decide_eq_false_iff_not]
        omega
      rw [hflag]
      have hcons : List.range' (s+1) m = (s+1) :: List.range' (s+2) (m-1) := by
        rcases m with _ | m2
        · omega
        · rfl
      rw [hcons]
      have hempty : (((s+1) :: List.range' (s+2) (m-1)).isEmpty && !false) = false := rfl
      simp only [hempty]
      unfold zone_points secondPassCount
      rw [if_neg (by simp), linspace_false_eq, List.map_map]
      simp only [Nat.add_zero]
      rfl

lemma zone_segments_range (edge ratios : List ℚ) (mult : ℚ) (n : ℕ) :
    zone_segments edge ratios mult false (List.range n) =
      (List.range n).map (fun i =>
        zone_points edge ratios mult (decide (i = n - 1)) i) := by
  rw [List.range_eq_range', zone_segments_range']
  have harith : 0 + n - 1 = n - 1 := by omega
  rw [harith]

lemma get_energies_core_multiple (edge ratios : List ℚ) (frames : ℚ)
    (hlen : ¬ ratios.length + 1 ≠ edge.length) :
    get_energies_core edge ratios false frames =
      energy_zone_loop edge ratios (scaleFactor edge ratios frames) false
        (List.range ratios.length) := by
  unfold get_energies_core
  rw [if_neg hlen]
  show energy_zone_loop edge ratios
      (1 * (((((List.range ratios.length).map (fun i =>
        roundHalfEven (|edge.getD (i+1) 0 - edge.getD i 0| /
          (ratios.getD i 0 * 1)))).sum : ℤ) : ℚ) / frames))
      false (List.range ratios.length) = _
  have hmul : (fun i => roundHalfEven
        (|edge.getD (i+1) 0 - edge.getD i 0| / (ratios.getD i 0 * 1))) =
      (fun i => roundHalfEven
        (|edge.getD (i+1) 0 - edge.getD i 0| / ratios.getD i 0)) := by
    funext i
    rw [mul_one]
  rw [hmul, one_mul]
  rfl

lemma get_energies_core_ok (edge ratios : List ℚ) (frames : ℚ)
    (hlen : ratios.length + 1 = edge.length)
    (hr : ∀ i < ratios.length, ¬ ratios.getD i 0 < 1/100)
    (hs : ¬ scaleFactor edge ratios frames < 1/100) :
    get_energies_core edge ratios false frames =
      .ok (energy_list_spec edge ratios frames) := by
  rw [get_energies_core_multiple edge ratios frames (by omega)]
  rw [energy_zone_loop_ok edge ratios (scaleFactor edge ratios frames) false
    (List.range ratios.length) (fun i hi => hr i (List.mem_range.mp hi)) hs]
  rw [zone_segments_range]
  rfl

/-- Claim C2: on a multi-zone edge the point counts are computed in two
passes — first-pass counts at unit scale summed to `S`, a single global
scale factor `S / frames`, and second-pass counts
`max(1, round(|E[i+1]-E[i]| / max(0.01, R[i] * scale)))` — with the same
scale factor applied to every zone's weight. -/
theorem C2_two_pass_counts (edge ratios : List ℚ) (frames : ℚ)
    (hlen : ratios.length + 1 = edge.length) (hn : 1 ≤ ratios.length)
    (hr : ∀ i < ratios.length, 1/100 ≤ ratios.getD i 0)
    (hs : 1/100 ≤ scaleFactor edge ratios frames) :
    get_energies_core edge ratios false frames =
      .ok (((List.range ratios.length).map (fun i =>
        zone_points edge ratios (scaleFactor edge ratios frames)
          (decide (i = ratios.length - 1)) i)).flatten) ∧
    scaleFactor edge ratios frames =
      ((((List.range ratios.length).map (fun i =>
        roundHalfEven (|edge.getD (i+1) 0 - edge.getD i 0| /
          ratios.getD i 0))).sum : ℤ) : ℚ) / frames ∧
    (∀ i < ratios.length,
      (zone_points edge ratios (scaleFactor edge ratios frames)
        (decide (i = ratios.length - 1)) i).length =
      (max 1 (roundHalfEven (|edge.getD (i+1) 0 - edge.getD i 0| /
        max (1/100) (ratios.getD i 0 * scaleFactor edge ratios frames)))).toNat +
      (if i = ratios.length - 1 then 1 else 0)) := by
  refine ⟨?_, rfl, ?_⟩
  · exact get_energies_core_ok edge ratios frames hlen
      (fun i hi => not_lt.mpr (hr i hi)) (not_lt.mpr hs)
  · intro i hi
    by_cases h : i = ratios.length - 1 <;>
      simp [zone_points, secondPassCount, h]

theorem C2_two_pass_counts_witness :
    get_energies_core [0, 1, 3] [1, 1] false 3 =
      .ok (((List.range ([1, 1] : List ℚ).length).map (fun i =>
        zone_points [0, 1, 3] [1, 1] (scaleFactor [0, 1, 3] [1, 1] 3)
          (decide (i = ([1, 1] : List ℚ).length - 1)) i)).flatten) :=
  (C2_two_pass_counts [0, 1, 3] [1, 1] 3 (by decide) (by decide)
    (by with_unfolding_all decide) (by with_unfolding_all decide)).1

lemma one_le_secondPassCount (edge ratios : List ℚ) (mult : ℚ) (i : ℕ) :
    1 ≤ secondPassCount edge ratios mult i :=
  one_le_toNat_max_one _

lemma round005_left_threshold_mem (edge ratios : List ℚ) (mult : ℚ) (last : Bool) (i : ℕ) :
    round005 (edge.getD i 0) ∈ zone_points edge ratios mult last i := by
  unfold zone_points
  refine List.mem_map.mpr ⟨0, List.mem_range.mpr ?_, ?_⟩
  · have := one_le_secondPassCount edge ratios mult i
    cases last <;> simp <;> omega
  · norm_num

lemma round005_right_threshold_mem (edge ratios : List ℚ) (mult : ℚ) (i : ℕ) :
    round005 (edge.getD (i+1) 0) ∈ zone_points edge ratios mult true i := by
  unfold zone_points
  refine List.mem_map.mpr ⟨secondPassCount edge ratios mult i, List.mem_range.mpr ?_, ?_⟩
  · simp
  · have hc : ((secondPassCount edge ratios mult i : ℕ) : ℚ) ≠ 0 := by
      have h1 := one_le_secondPassCount edge ratios mult i
      exact_mod_cast Nat.one_le_iff_ne_zero.mp h1
    congr 1
    field_simp

/-- Claim C3: on a multi-zone edge the output is the in-order concatenation
of per-zone segments; zone `i` contributes `count_i` evenly spaced points
starting at `E[i]` (one extra point on the final zone only, which is the
only zone whose index range reaches its right endpoint), and every original
edge threshold appears, rounded to the nearest 0.05, in the output. -/
theorem C3_zone_structure (edge ratios : List ℚ) (frames : ℚ)
    (hlen : ratios.length + 1 = edge.length) (hn : 1 ≤ ratios.length)
    (hr : ∀ i < ratios.length, 1/100 ≤ ratios.getD i 0)
    (hs : 1/100 ≤ scaleFactor edge ratios frames) :
    get_energies_core edge ratios false frames =
      .ok (energy_list_spec edge ratios frames) ∧
    (∀ i < ratios.length,
      zone_points edge ratios (scaleFactor edge ratios frames)
          (decide (i = ratios.length - 1)) i =
        (List.range (secondPassCount edge ratios (scaleFactor edge ratios frames) i +
            (if i = ratios.length - 1 then 1 else 0))).map
          (fun (k : ℕ) => round005 (edge.getD i 0 +
            (k : ℚ) * (edge.getD (i+1) 0 - edge.getD i 0) /
              (secondPassCount edge ratios (scaleFactor edge ratios frames) i : ℚ)))) ∧
    (∀ i ≤ ratios.length,
      round005 (edge.getD i 0) ∈ energy_list_spec edge ratios frames) := by
  refine ⟨get_energies_core_ok edge ratios frames hlen
    (fun i hi => not_lt.mpr (hr i hi)) (not_lt.mpr hs), ?_, ?_⟩
  · intro i hi
    by_cases h : i = ratios.length - 1 <;> simp [zone_points, h]
  · intro i hi
    rcases Nat.lt_or_ge i ratios.length with hlt | hge
    · exact List.mem_flatten.mpr
        ⟨zone_points edge ratios (scaleFactor edge ratios frames)
            (decide (i = ratios.length - 1)) i,
         List.mem_map.mpr ⟨i, List.mem_range.mpr hlt, rfl⟩,
         round005_left_threshold_mem edge ratios _ _ i⟩
    · have hieq : i = ratios.length := by omega
      have hj : ratios.length - 1 + 1 = i := by omega
      refine List.mem_flatten.mpr
        ⟨zone_points edge ratios (scaleFactor edge ratios frames)
            (decide (ratios.length - 1 = ratios.length - 1)) (ratios.length - 1),
         List.mem_map.mpr ⟨ratios.length - 1, List.mem_range.mpr (by omega), rfl⟩, ?_⟩
      have hflag : (decide (ratios.length - 1 = ratios.length - 1)) = true := by simp
      rw [hflag, ← hj]
      exact round005_right_threshold_mem edge ratios _ (ratios.length - 1)

theorem C3_zone_structure_witness :
    round005 (([0, 1, 3] : List ℚ).getD 2 0) ∈ energy_list_spec [0, 1, 3] [1, 1] 3 :=
  (C3_zone_structure [0, 1, 3] [1, 1] 3 (by decide) (by decide)
    (by with_unfolding_all decide) (by with_unfolding_all decide)).2.2 2 (by decide)

lemma energy_zone_loop_error_iff (edge ratios : List ℚ) (mult : ℚ) (si : Bool) :
    ∀ idx : List ℕ,
      (energy_zone_loop edge ratios mult si idx = .error .ratioValue ↔
        (∃ i ∈ idx, ratios.getD i 0 < 1/100) ∨ (idx ≠ [] ∧ mult < 1/100)) := by
  intro idx
  induction idx with
  | nil => simp [energy_zone_loop]
  | cons i rest ih =>
    rw [energy_zone_loop]
    by_cases h1 : ratios.getD i 0 < 1/100
    · rw [if_pos h1]
      constructor
      · intro _; exact Or.inl ⟨i, by simp, h1⟩
      · intro _; rfl
    · rw [if_neg h1]
      by_cases h2 : mult < 1/100
      · rw [if_pos h2]
        constructor
        · intro _; exact Or.inr ⟨by simp, h2⟩
        · intro _; rfl
      · rw [if_neg h2]
        cases hrec : energy_zone_loop edge ratios mult si rest with
        | error e =>
          have he : e = Err.ratioValue :=
            energy_zone_loop_error_ratioValue edge ratios mult si rest e hrec
          subst he
          have hrest := ih.mp hrec
          constructor
          · intro _
            rcases hrest with ⟨j, hj, hjlt⟩ | ⟨_, hm⟩
            · exact Or.inl ⟨j, by simp [hj], hjlt⟩
            · exact absurd hm h2
          · intro _; rfl
        | ok tail =>
          constructor
          · intro h; exact absurd h (by simp)
          · rintro (⟨j, hj, hjlt⟩ | ⟨_, hm⟩)
            · rcases List.mem_cons.mp hj with hji | hjr
              · subst hji; exact absurd hjlt h1
              · exact absurd hrec (by
                  intro hc
                  have := ih.mpr (Or.inl ⟨j, hjr, hjlt⟩)
                  rw [this] at hc
                  exact Except.noConfusion hc)
            · exact absurd hm h2

/-- Claim C7: on a multi-zone invocation with the right ratio count, the
ratio-value error is raised exactly when some resolved weight or the derived
global scale factor is below 0.01 (no energy list is produced then), and
when all of them are at least 0.01 the call succeeds. -/
theorem C7_ratio_value_guard (edge ratios : List ℚ) (frames : ℚ)
    (hlen : ratios.length + 1 = edge.length) (hn : 1 ≤ ratios.length) :
    (get_energies_core edge ratios false frames = .error .ratioValue ↔
      ((∃ i < ratios.length, ratios.getD i 0 < 1/100) ∨
        scaleFactor edge ratios frames < 1/100)) ∧
    (¬ ((∃ i < ratios.length, ratios.getD i 0 < 1/100) ∨
        scaleFactor edge ratios frames < 1/100) →
      ∃ l, get_energies_core edge ratios false frames = .ok l) := by
  have hcore := get_energies_core_multiple edge ratios frames (by omega)
  constructor
  · rw [hcore, energy_zone_loop_error_iff]
    constructor
    · rintro (⟨i, hi, h⟩ | ⟨_, hm⟩)
      · exact Or.inl ⟨i, List.mem_range.mp hi, h⟩
      · exact Or.inr hm
    · rintro (⟨i, hi, h⟩ | hm)
      · exact Or.inl ⟨i, List.mem_range.mpr hi, h⟩
      · refine Or.inr ⟨?_, hm⟩
        intro hcontra
        have : ratios.length = 0 := by
          by_contra hne
          have : 0 ∈ List.range ratios.length := List.mem_range.mpr (by omega)
          rw [hcontra] at this
          simp at this
        omega
  · intro hno
    push_neg at hno
    exact ⟨energy_list_spec edge ratios frames,
      get_energies_core_ok edge ratios frames hlen
        (fun i hi => not_lt.mpr (hno.1 i hi)) (not_lt.mpr hno.2)⟩

theorem C7_ratio_value_guard_witness :
    get_energies_core [0, 1, 3] [2, 0.001] false 3 = .error .ratioValue :=
  (C7_ratio_value_guard [0, 1, 3] [2, 0.001] 3 (by decide) (by decide)).1.mpr
    (Or.inl ⟨1, by decide, by with_unfolding_all decide⟩)

lemma energy_zone_loop_mem_round (edge ratios : List ℚ) (mult : ℚ) (si : Bool) :
    ∀ (idx : List ℕ) (l : List ℚ), energy_zone_loop edge ratios mult si idx = .ok l →
      ∀ v ∈ l, ∃ x : ℚ, v = round005 x := by
  intro idx
  induction idx with
  | nil =>
    intro l h v hv
    rw [energy_zone_loop] at h
    have hl := Except.ok.inj h
    subst hl
    simp at hv
  | cons i rest ih =>
    intro l h v hv
    rw [energy_zone_loop] at h
    split at h
    · exact absurd h (by simp)
    · split at h
      · exact absurd h (by simp)
      · split at h
        · exact absurd h (by simp)
        · next tail heq =>
          have hl := Except.ok.inj h
          subst hl
          rcases List.mem_append.mp hv with hseg | htail
          · rcases List.mem_map.mp hseg with ⟨x, _, hx⟩
            exact ⟨x, hx.symm⟩
          · exact ih tail heq v htail

/-- Claim C9: every value in a successfully generated energy list is an
exact multiple of 0.05 (every produced point is rounded to the 0.05 grid
before being returned). -/
theorem C9_multiples_of_005 (edge ratios : List ℚ) (si : Bool) (frames : ℚ)
    (l : List ℚ) (h : get_energies_core edge ratios si frames = .ok l) :
    ∀ v ∈ l, ∃ k : ℤ, v = (k : ℚ) / 20 := by
  intro v hv
  unfold get_energies_core at h
  split at h
  · exact absurd h (by simp)
  · rcases energy_zone_loop_mem_round edge ratios _ si _ l h v hv with ⟨x, hx⟩
    exact ⟨roundHalfEven (x * 20), hx⟩

theorem C9_multiples_of_005_witness : ∃ k : ℤ, (1 : ℚ) = (k : ℚ) / 20 :=
  C9_multiples_of_005 [0, 1] [1] false 1 [0, 1]
    (by with_unfolding_all rfl) 1 (by simp)

lemma zip_map_self {α β γ : Type} (l : List α) (f : α → β) (g : α × β → γ) :
    (l.zip (l.map f)).map g = l.map (fun a => g (a, f a)) := by
  induction l with
  | nil => rfl
  | cons a rest ih => simp [ih]

lemma apply_rules_map (energies : List ℚ) :
    ∀ (rs : List (ExpTest × ℚ)), (∀ p ∈ rs, p.1 ≠ ExpTest.unknown) →
      ∀ (f : ℚ → ℚ), apply_rules energies rs (energies.map f) =
        .ok (energies.map (fun e => rs.foldl
          (fun acc p => if test_match p.1 e then p.2 else acc) (f e))) := by
  intro rs
  induction rs with
  | nil => intro _ f; simp [apply_rules]
  | cons p rest ih =>
    intro hv f
    obtain ⟨t, v⟩ := p
    have ht : t ≠ ExpTest.unknown := hv (t, v) (by simp)
    rw [apply_rules, if_neg ht, zip_map_self,
      ih (fun q hq => hv q (by simp [hq])) (fun e => if test_match t e then v else f e)]
    rfl

lemma apply_rules_length (energies : List ℚ) :
    ∀ (rs : List (ExpTest × ℚ)) (times l : List ℚ), times.length = energies.length →
      apply_rules energies rs times = .ok l → l.length = energies.length := by
  intro rs
  induction rs with
  | nil =>
    intro times l hlen h
    rw [apply_rules] at h
    have hl := Except.ok.inj h
    subst hl
    exact hlen
  | cons p rest ih =>
    intro times l hlen h
    obtain ⟨t, v⟩ := p
    rw [apply_rules] at h
    split at h
    · exact absurd h (by simp)
    · refine ih _ l ?_ h
      simp [List.length_zip, hlen]

lemma resolve_times_length (energies : List ℚ) (exposure_time : ExposureInput)
    (times : List ℚ) (h : resolve_times energies exposure_time = .ok times) :
    times.length = energies.length := by
  cases exposure_time with
  | num q =>
    have := Except.ok.inj h
    subst this
    simp
  | emptyStr =>
    have := Except.ok.inj h
    subst this
    simp
  | rules d rs =>
    exact apply_rules_length energies rs _ times (by simp) h

lemma construct_exposure_times_ok (energies : List ℚ) (exposure_time : ExposureInput)
    (repeats : ℤ) (threshold : ℚ) (h1 : ¬(1 > repeats ∨ 100 < repeats))
    (times : List ℚ) (hres : resolve_times energies exposure_time = .ok times) :
    construct_exposure_times energies exposure_time repeats threshold =
      .ok (times,
        (times.map (fun x => x * (repeats : ℚ) + 1 * ((repeats : ℚ) - 1))).sum
          + 4 * (times.length : ℚ),
        decide (threshold <
          (times.map (fun x => x * (repeats : ℚ) + 1 * ((repeats : ℚ) - 1))).sum
            + 4 * (times.length : ℚ))) := by
  unfold construct_exposure_times
  rw [if_neg h1, hres]

lemma sum_map_mul_add (l : List ℚ) (r c : ℚ) :
    (l.map (fun x => x * r + c)).sum = (l.map (fun x => x * r)).sum + l.length * c := by
  induction l with
  | nil => simp
  | cons a rest ih =>
    simp only [List.map_cons, List.sum_cons, ih, List.length_cons]
    push_cast
    ring

/-- Claim C5: for a repeat count in [1,100] and any exposure spec that
resolves, the scheduler returns the per-point times together with the total
`sum(exposure_i * repeats) + 1*(repeats-1)*N + 4*N`; the long-scan warning
(the returned boolean) never prevents the schedule from being returned,
whatever the threshold. -/
theorem C5_total_duration (energies : List ℚ) (exposure_time : ExposureInput)
    (repeats : ℤ) (threshold : ℚ) (times : List ℚ)
    (h1 : 1 ≤ repeats) (h2 : repeats ≤ 100)
    (hres : resolve_times energies exposure_time = .ok times) :
    ∃ warn, construct_exposure_times energies exposure_time repeats threshold =
        .ok (times,
          (times.map (fun x => x * (repeats : ℚ))).sum +
            1 * ((repeats : ℚ) - 1) * (energies.length : ℚ) +
            4 * (energies.length : ℚ), warn) ∧
      times.length = energies.length := by
  have hC := construct_exposure_times_ok energies exposure_time repeats threshold
    (by omega) times hres
  have hlen2 := resolve_times_length energies exposure_time times hres
  have htime : (times.map (fun x => x * (repeats : ℚ) + 1 * ((repeats : ℚ) - 1))).sum
      + 4 * (times.length : ℚ) =
      (times.map (fun x => x * (repeats : ℚ))).sum +
        1 * ((repeats : ℚ) - 1) * (energies.length : ℚ) +
        4 * (energies.length : ℚ) := by
    rw [sum_map_mul_add, hlen2]
    ring
  refine ⟨decide (threshold <
    (times.map (fun x => x * (repeats : ℚ))).sum +
      1 * ((repeats : ℚ) - 1) * (energies.length : ℚ) +
      4 * (energies.length : ℚ)), ?_, hlen2⟩
  rw [hC, htime]

theorem C5_total_duration_witness :
    ∃ warn, construct_exposure_times [100, 300] (.rules 1 [(.less_than 270, 10)]) 2 30 =
        .ok ([10, 1],
          (([10, 1] : List ℚ).map (fun x => x * ((2 : ℤ) : ℚ))).sum +
            1 * (((2 : ℤ) : ℚ) - 1) * (([100, 300] : List ℚ).length : ℚ) +
            4 * (([100, 300] : List ℚ).length : ℚ), warn) ∧
      ([10, 1] : List ℚ).length = ([100, 300] : List ℚ).length :=
  C5_total_duration [100, 300] (.rules 1 [(.less_than 270, 10)]) 2 30 [10, 1]
    (by decide) (by decide) (by with_unfolding_all rfl)

/-- Claim C6: with a rule-list spec, every point starts at the default and
each (predicate, value) pair is applied in order with last-applied-wins
semantics — the final exposure of a point `e` is the left fold of the rules
over the default — and the four predicates mean `e < t`, `e > t`,
`t1 < e < t2` (both bounds exclusive) and exact equality `e = t`. -/
theorem C6_rule_order_semantics (energies : List ℚ) (d : ℚ) (rs : List (ExpTest × ℚ))
    (repeats : ℤ) (threshold : ℚ) (h1 : 1 ≤ repeats) (h2 : repeats ≤ 100)
    (hv : ∀ p ∈ rs, p.1 ≠ ExpTest.unknown) :
    (∃ time warn,
      construct_exposure_times energies (.rules d rs) repeats threshold =
        .ok (energies.map (fun e => rs.foldl
          (fun acc p => if test_match p.1 e then p.2 else acc) d), time, warn)) ∧
    (∀ e t : ℚ, test_match (.less_than t) e = true ↔ e < t) ∧
    (∀ e t : ℚ, test_match (.greater_than t) e = true ↔ e > t) ∧
    (∀ e t1 t2 : ℚ, test_match (.between t1 t2) e = true ↔ (t1 < e ∧ e < t2)) ∧
    (∀ e t : ℚ, test_match (.equals t) e = true ↔ e = t) := by
  refine ⟨?_, ?_, ?_, ?_, ?_⟩
  · have hres : resolve_times energies (.rules d rs) =
        .ok (energies.map (fun e => rs.foldl
          (fun acc p => if test_match p.1 e then p.2 else acc) d)) :=
      apply_rules_map energies rs hv (fun _ => d)
    exact ⟨_, _, construct_exposure_times_ok energies (.rules d rs) repeats threshold
      (by omega) _ hres⟩
  · intro e t; simp [test_match]
  · intro e t; simp [test_match]
  · intro e t1 t2; simp [test_match]
  · intro e t; simp [test_match]

theorem C6_rule_order_semantics_witness :
    ∃ time warn,
      construct_exposure_times [100, 280, 300]
          (.rules 1 [(.less_than 270, 10), (.greater_than 290, 5)]) 1 1800 =
        .ok (([100, 280, 300] : List ℚ).map (fun e =>
          ([(ExpTest.less_than 270, (10 : ℚ)), (ExpTest.greater_than 290, 5)]).foldl
            (fun acc p => if test_match p.1 e then p.2 else acc) 1), time, warn) :=
  (C6_rule_order_semantics [100, 280, 300] 1
    [(ExpTest.less_than 270, 10), (ExpTest.greater_than 290, 5)] 1 1800
    (by decide) (by decide) (by decide)).1
